import Mathlib

/-!
# Verification of the Markowitz queue (src/filter/markowitz.c)

Shallow embedding of the Markowitz-cost indexed priority queue of the merge
step.  The C data layout is:

* `Q` is a flat array of `(dj, count)` pairs, 1-indexed; `Q[0]` holds the
  number of live items, modelled here as the field `n`.
* `A` maps a column offset `dj` to its slot in `Q`; the dead sentinel
  `MKZ_INF` is modelled as `none`.

Machine integers: slot indices, column offsets and stored costs are
`index_t` (unsigned) in C and are modelled as `Nat`; the signed cost
computations of the estimators (`int` / `int32_t`) are modelled as `Int`.
The arithmetic is modelled exactly (no wrap-around), which coincides with
the C computation whenever the intermediate values fit in the machine
types, as they do for any real matrix.
-/

set_option maxHeartbeats 1000000

/-- The Markowitz queue: `n` is the live element count `MKZQ[0]`; `Q k` is
the pair `(MkzGet(Q,k,0), MkzGet(Q,k,1))` stored at slot `k`; `A dj` is
`MKZA[dj]`, with `none` standing for the dead sentinel `MKZ_INF`. -/
structure MkzQueue where
  n : Nat
  Q : Nat → Nat × Nat
  A : Nat → Option Nat

/-- `MkzIsAlive`: `A[dj] != MKZ_INF`. -/
def MkzIsAlive (A : Nat → Option Nat) (dj : Nat) : Bool :=
  (A dj).isSome

/-- `MkzAssign`: `(Q, A)[k1] <- (Q, A)[k2]`. -/
def MkzAssign (q : MkzQueue) (k1 k2 : Nat) : MkzQueue :=
  let dj := (q.Q k2).1
  { q with
    Q := Function.update q.Q k1 (dj, (q.Q k2).2)
    A := Function.update q.A dj (some k1) }

/-- Loop of `MkzUpQueue`: the pair `(dj, count)` read at entry is carried
while fathers with cost `>= count` are moved down into the hole at `k`;
at exit `(dj, count)` is written at the final slot and `A[dj]` updated. -/
def MkzUpQueueLoop (q : MkzQueue) (dj count k : Nat) : MkzQueue :=
  if _h : 1 < k ∧ count ≤ (q.Q (k / 2)).2 then
    MkzUpQueueLoop (MkzAssign q k (k / 2)) dj count (k / 2)
  else
    { q with
      Q := Function.update q.Q k (dj, count)
      A := Function.update q.A dj (some k) }
termination_by k
decreasing_by omega

/-- `MkzUpQueue(Q, A, k)`. -/
def MkzUpQueue (q : MkzQueue) (k : Nat) : MkzQueue :=
  MkzUpQueueLoop q (q.Q k).1 (q.Q k).2 k

/-- The son of `k` with the smallest count: the `j` computed at the top of
the `MkzDownQueue` loop body (`j = 2k`, bumped to `2k+1` when a right son
exists and has a strictly smaller count). -/
def MkzSmallerSon (q : MkzQueue) (k : Nat) : Nat :=
  if 2 * k < q.n ∧ (q.Q (2 * k + 1)).2 < (q.Q (2 * k)).2 then 2 * k + 1 else 2 * k

/-- Loop of `MkzDownQueue`.  The guard `1 ≤ k` is implicit in C (slots are
1-based); it is made explicit here for termination and never fails on the
call sites. -/
def MkzDownQueueLoop (q : MkzQueue) (dj count k : Nat) : MkzQueue :=
  if _h : 1 ≤ k ∧ 2 * k ≤ q.n then
    if count ≤ (q.Q (MkzSmallerSon q k)).2 then
      { q with
        Q := Function.update q.Q k (dj, count)
        A := Function.update q.A dj (some k) }
    else
      MkzDownQueueLoop (MkzAssign q k (MkzSmallerSon q k)) dj count (MkzSmallerSon q k)
  else
    { q with
      Q := Function.update q.Q k (dj, count)
      A := Function.update q.A dj (some k) }
termination_by q.n + 1 - k
decreasing_by
  simp only [MkzAssign, MkzSmallerSon]
  split <;> omega

/-- `MkzDownQueue(Q, A, k)`. -/
def MkzDownQueue (q : MkzQueue) (k : Nat) : MkzQueue :=
  MkzDownQueueLoop q (q.Q k).1 (q.Q k).2 k

/-- `MkzMoveUpOrDown(Q, A, k)`: move the freshly written slot `k` up when
its count is strictly below its father's, down otherwise (also down when
`k` is the root). -/
def MkzMoveUpOrDown (q : MkzQueue) (k : Nat) : MkzQueue :=
  if k = 1 then
    MkzDownQueue q k
  else
    if (q.Q k).2 < (q.Q (k / 2)).2 then
      MkzUpQueue q k
    else
      MkzDownQueue q k

/-- The cost-policy selector `mat->mkztype` (`MKZTYPE_*` of the source). -/
inductive MkzType where
  | MKZTYPE_CAVALLAR : MkzType
  | MKZTYPE_PURE : MkzType
  | MKZTYPE_LIGHT : MkzType
deriving DecidableEq

/-- The parts of `filter_matrix_t` read or written by markowitz.c:
`wt j` is the (signed) column weight `mat->wt[j]`; `R j` is the list of
rows referencing column `j` (`mat->R[j][1 .. mat->R[j][0]]`, so that
`mat->R[j][0]` is `(R j).length`); `rowLen i` is `matLengthRow(mat, i)`;
`MKZ` bundles `mat->MKZQ` and `mat->MKZA`. -/
structure filter_matrix_t where
  wt : Nat → Int
  R : Nat → List Nat
  rowLen : Nat → Nat
  wmstmax : Int
  mkztype : MkzType
  MKZ : MkzQueue

/-- `matLengthRow(mat, i)`. -/
def matLengthRow (mat : filter_matrix_t) (i : Nat) : Nat :=
  mat.rowLen i

/-- Modelled from the spec: the external weight-sum and
minimum-spanning-tree cost oracles (`weightSum` and `minCostUsingMST`
from mst.c, which is not under src/).  The spec treats them as external
collaborators: "given a column and its up-to-`wmstmax` referencing row
indices, returns an integer minimal combination cost"; they read only the
row data of the matrix, fixed for a merge run, so they are modelled as
abstract functions of the row indices and the column. -/
structure MstOracles where
  weightSum : Nat → Nat → Nat → Int
  minCostUsingMST : Int → List Nat → Nat → Int

/-- `Cavallar(mat, j)`: cost `k` for an ideal of weight `k`. -/
def Cavallar (mat : filter_matrix_t) (j : Nat) : Int :=
  mat.wt j

/-- `pureMkz(mat, j)`: the pure Markowitz estimate.  In the `[]` case the
C code reads `mat->R[j][1]` out of bounds; that case is unreachable
whenever `mat->wt[j]` equals the number of rows listed for `j` (it is
`≥ 3` in this branch), and is modelled by an arbitrary value. -/
def pureMkz (mat : filter_matrix_t) (j : Nat) : Int :=
  let w := mat.wt j
  if w ≤ 1 then -4
  else if w = 2 then -2
  else
    match mat.R j with
    | [] => 0
    | i :: rest =>
      let w0 := rest.foldl
        (fun w0 i => if matLengthRow mat i < w0 then matLengthRow mat i else w0)
        (matLengthRow mat i)
      ((w0 : Int) - 2) * (w - 2) - 2

/-- `lightColAndMkz(mat, j)`: exact costs for light columns
(`wt[j] ≤ wmstmax`), pure Markowitz otherwise.  `ind` in C points at
`mat->R[j] + 1`, i.e. at the row list, whose first two entries are
`ind[0]` and `ind[1]`. -/
def lightColAndMkz (O : MstOracles) (mat : filter_matrix_t) (j : Nat) : Int :=
  let wj := mat.wt j
  if wj ≤ 1 then -4
  else if wj ≤ mat.wmstmax then
    if wj = 2 then
      O.weightSum ((mat.R j).getD 0 0) ((mat.R j).getD 1 0) j
        - (matLengthRow mat ((mat.R j).getD 0 0) : Int)
        - (matLengthRow mat ((mat.R j).getD 1 0) : Int)
    else
      O.minCostUsingMST wj (mat.R j) j
  else
    pureMkz mat j

/-- `MkzCount(mat, j)`: dispatch on `mat->mkztype`, then clamp the cost to
be non-negative before it is stored in the unsigned queue. -/
def MkzCount (O : MstOracles) (mat : filter_matrix_t) (j : Nat) : Int :=
  let cost : Int :=
    match mat.mkztype with
    | .MKZTYPE_LIGHT => lightColAndMkz O mat j
    | .MKZTYPE_PURE => pureMkz mat j
    | .MKZTYPE_CAVALLAR => Cavallar mat j
  if cost < 0 then 0 else cost

/-- The cost write `MkzSet(mat->MKZQ, adr, 1, mkz)` of `MkzUpdate`. -/
def MkzWriteCost (q : MkzQueue) (adr mkz : Nat) : MkzQueue :=
  { q with Q := Function.update q.Q adr ((q.Q adr).1, mkz) }

/-- `MkzUpdate(mat, j)`: recompute the cost of column `j` and re-place its
slot in the heap.  The failed `ASSERT(adr != MKZ_INF)` on a dead column is
a fatal abort, modelled as `none`. -/
def MkzUpdate (O : MstOracles) (mat : filter_matrix_t) (j : Nat) :
    Option filter_matrix_t :=
  match mat.MKZ.A j with
  | none => none
  | some adr =>
    some { mat with
           MKZ := MkzMoveUpOrDown (MkzWriteCost mat.MKZ adr (MkzCount O mat j).toNat) adr }

/-- `MkzUpdateN(mat, j, n)` (the compiled, sequential branch): update the
columns in the order supplied. -/
def MkzUpdateN (O : MstOracles) (mat : filter_matrix_t) (js : List Nat) :
    Option filter_matrix_t :=
  js.foldlM (fun m jj => MkzUpdate O m jj) mat

/-- The value printed by `MkzClear` when verbose:
`MkzGet(mat->MKZQ, mat->MKZQ[0], 1)`, the count stored at slot `Q[0]`
(the last live slot). -/
def MkzClearLogged (mat : filter_matrix_t) : Nat :=
  (mat.MKZ.Q mat.MKZ.n).2

/-- Modelled from the spec: "the maximum cost ever observed at the root
(slot 1) of the queue over the lifetime of the merge run", for a run whose
successive queue states are listed in `hist`. -/
def specMaxRootEver (hist : List MkzQueue) : Nat :=
  (hist.map (fun q => (q.Q 1).2)).foldr max 0

/-- Modelled from the spec: the per-column step of the two-phase batch
update, applied to an already computed cost `c`: write the cost into the
column's slot, then repair the heap (the dead case is the same fatal
contract violation as in `MkzUpdate`). -/
def MkzApplyCost (mat : filter_matrix_t) (j : Nat) (c : Int) :
    Option filter_matrix_t :=
  match mat.MKZ.A j with
  | none => none
  | some adr =>
    some { mat with MKZ := MkzMoveUpOrDown (MkzWriteCost mat.MKZ adr c.toNat) adr }

/-- Modelled from the spec: the two-phase batch update.  Phase one
computes all new costs from the matrix state alone; phase two applies the
cost-write and heap-repair for each column sequentially in the order
supplied. -/
def specUpdateN (O : MstOracles) (mat : filter_matrix_t) (js : List Nat) :
    Option filter_matrix_t :=
  (js.zip (js.map (fun j => MkzCount O mat j))).foldlM
    (fun m p => MkzApplyCost m p.1 p.2) mat

/-! ## Invariants -/

/-- The heap invariant as the spec states it: every parent's cost is at
most both children's costs, over the live slots `[1, n]`. -/
def IsHeap (q : MkzQueue) : Prop :=
  ∀ k, 1 ≤ k → 2 * k ≤ q.n →
    (q.Q k).2 ≤ (q.Q (2 * k)).2 ∧ (2 * k + 1 ≤ q.n → (q.Q k).2 ≤ (q.Q (2 * k + 1)).2)

/-- The heap invariant in parent form: each non-root live slot costs at
least its father. -/
def HeapParent (q : MkzQueue) : Prop :=
  ∀ c, 2 ≤ c → c ≤ q.n → (q.Q (c / 2)).2 ≤ (q.Q c).2

/-- The bijection invariant: every live slot's column points back at the
slot, and every alive column's slot is live and stores the column. -/
def Bijection (q : MkzQueue) : Prop :=
  (∀ k, 1 ≤ k → k ≤ q.n → q.A (q.Q k).1 = some k) ∧
  (∀ c k, q.A c = some k → 1 ≤ k ∧ k ≤ q.n ∧ (q.Q k).1 = c)

/-- The bijection invariant with a hole: mid-sift state in which slot `k`
is the hole whose array content is stale, the pair being carried in hand
belongs to column `dj`, and every other alive column `c` still sits at
its slot with its cost `P c` untouched. -/
def BijHole (q : MkzQueue) (k dj : Nat) (P : Nat → Nat) : Prop :=
  1 ≤ k ∧ k ≤ q.n ∧
  (∀ s, 1 ≤ s → s ≤ q.n → s ≠ k → q.A (q.Q s).1 = some s) ∧
  (∀ c s, c ≠ dj → q.A c = some s →
    1 ≤ s ∧ s ≤ q.n ∧ s ≠ k ∧ (q.Q s).1 = c ∧ (q.Q s).2 = P c) ∧
  (∀ s, 1 ≤ s → s ≤ q.n → s ≠ k → (q.Q s).1 ≠ dj) ∧
  q.A dj ≠ none

/-- Sift-up loop invariant for the hole `k` carrying count `count`:
all parent edges not touching the hole hold, the carried count is below
the hole's children, and the hole's father is below the hole's children
(so it may safely move down into the hole). -/
def UpInv (q : MkzQueue) (k count : Nat) : Prop :=
  (∀ c, 2 ≤ c → c ≤ q.n → c ≠ k → c / 2 ≠ k → (q.Q (c / 2)).2 ≤ (q.Q c).2) ∧
  (∀ c, (c = 2 * k ∨ c = 2 * k + 1) → c ≤ q.n → count ≤ (q.Q c).2) ∧
  (1 < k → ∀ c, (c = 2 * k ∨ c = 2 * k + 1) → c ≤ q.n → (q.Q (k / 2)).2 ≤ (q.Q c).2)

/-- Sift-down loop invariant for the hole `k` carrying count `count`:
all parent edges not touching the hole hold, the hole's father is below
the carried count and below the hole's children. -/
def DownInv (q : MkzQueue) (k count : Nat) : Prop :=
  (∀ c, 2 ≤ c → c ≤ q.n → c ≠ k → c / 2 ≠ k → (q.Q (c / 2)).2 ≤ (q.Q c).2) ∧
  (1 < k → (q.Q (k / 2)).2 ≤ count) ∧
  (1 < k → ∀ c, (c = 2 * k ∨ c = 2 * k + 1) → c ≤ q.n → (q.Q (k / 2)).2 ≤ (q.Q c).2)

/-- Heap precondition holding right after the cost write at slot `k` of a
state whose heap property held before the write: all parent edges not
touching `k` hold, and `k`'s father is below `k`'s children. -/
def HeapExceptAt (q : MkzQueue) (k : Nat) : Prop :=
  (∀ c, 2 ≤ c → c ≤ q.n → c ≠ k → c / 2 ≠ k → (q.Q (c / 2)).2 ≤ (q.Q c).2) ∧
  (1 < k → ∀ c, (c = 2 * k ∨ c = 2 * k + 1) → c ≤ q.n → (q.Q (k / 2)).2 ≤ (q.Q c).2)

/-- `w0` is the minimum row length among the rows referencing column `j`
(the spec's characterisation of the `w0` of `pureMkz`). -/
def IsMinRowLen (mat : filter_matrix_t) (j w0 : Nat) : Prop :=
  w0 ∈ (mat.R j).map (matLengthRow mat) ∧
  ∀ x ∈ (mat.R j).map (matLengthRow mat), w0 ≤ x

/-! ## Concrete states used by witnesses and counterexamples -/

/-- Trivial oracles for concrete evaluations. -/
def O0 : MstOracles :=
  { weightSum := fun _ _ _ => 0
    minCostUsingMST := fun _ _ _ => 0 }

/-- A small concrete queue: two live slots, columns 0 and 1 with costs 1
and 5; a valid heap with an intact bijection. -/
def qEx : MkzQueue :=
  { n := 2
    Q := fun s => if s = 1 then (0, 1) else if s = 2 then (1, 5) else (0, 0)
    A := fun c => if c = 0 then some 1 else if c = 1 then some 2 else none }

/-- A concrete matrix around `qEx`, Cavallar policy (cost = weight). -/
def matEx : filter_matrix_t :=
  { wt := fun j => if j = 0 then 3 else 2
    R := fun _ => []
    rowLen := fun _ => 0
    wmstmax := 0
    mkztype := .MKZTYPE_CAVALLAR
    MKZ := qEx }

/-- A concrete matrix exercising the `w ≥ 3` branch of `pureMkz`:
column 0 has weight 3 and referencing rows `[5, 6, 7]` of lengths
5, 6, 7. -/
def matPure : filter_matrix_t :=
  { wt := fun j => if j = 0 then 3 else 0
    R := fun j => if j = 0 then [5, 6, 7] else []
    rowLen := fun i => i
    wmstmax := 1
    mkztype := .MKZTYPE_PURE
    MKZ := qEx }

/-- A concrete matrix for the weight-3, minimum-row-length-2 boundary
case: column 0 has weight 3, rows `[4, 5, 6]` of lengths 2, 3, 4. -/
def matW3 : filter_matrix_t :=
  { wt := fun j => if j = 0 then 3 else 2
    R := fun j => if j = 0 then [4, 5, 6] else [4, 5]
    rowLen := fun i => i - 2
    wmstmax := 1
    mkztype := .MKZTYPE_PURE
    MKZ := qEx }

/-- A concrete matrix for the light policy: `wmstmax = 4`, column 0 of
weight 2 with rows `[3, 4]`, column 1 of weight 3, column 2 of weight 9
(heavier than `wmstmax`). -/
def matLight : filter_matrix_t :=
  { wt := fun j => if j = 0 then 2 else if j = 1 then 3 else 9
    R := fun j => if j = 0 then [3, 4] else [3, 4, 5]
    rowLen := fun i => i
    wmstmax := 4
    mkztype := .MKZTYPE_LIGHT
    MKZ := qEx }

/-! ## Basic lemmas about the queue operations -/

theorem mkzAssign_n (q : MkzQueue) (k1 k2 : Nat) : (MkzAssign q k1 k2).n = q.n := rfl

theorem mkzAssign_Q (q : MkzQueue) (k1 k2 s : Nat) :
    (MkzAssign q k1 k2).Q s = if s = k1 then ((q.Q k2).1, (q.Q k2).2) else q.Q s := by
  simp [MkzAssign, Function.update_apply]

theorem mkzAssign_A (q : MkzQueue) (k1 k2 c : Nat) :
    (MkzAssign q k1 k2).A c = if c = (q.Q k2).1 then some k1 else q.A c := by
  simp [MkzAssign, Function.update_apply]

theorem mkzSmallerSon_lb (q : MkzQueue) (k : Nat) : 2 * k ≤ MkzSmallerSon q k := by
  unfold MkzSmallerSon; split <;> omega

theorem mkzSmallerSon_ub (q : MkzQueue) (k : Nat) (h : 2 * k ≤ q.n) :
    MkzSmallerSon q k ≤ q.n := by
  unfold MkzSmallerSon; split <;> omega

theorem mkzSmallerSon_cases (q : MkzQueue) (k : Nat) :
    MkzSmallerSon q k = 2 * k ∨ MkzSmallerSon q k = 2 * k + 1 := by
  unfold MkzSmallerSon; split
  · exact Or.inr rfl
  · exact Or.inl rfl

theorem mkzSmallerSon_min (q : MkzQueue) (k : Nat) :
    ∀ c, (c = 2 * k ∨ c = 2 * k + 1) → c ≤ q.n →
      (q.Q (MkzSmallerSon q k)).2 ≤ (q.Q c).2 := by
  intro c hc hcn
  unfold MkzSmallerSon
  split
  · rename_i h
    rcases hc with rfl | rfl
    · exact le_of_lt h.2
    · exact le_rfl
  · rename_i h
    push_neg at h
    rcases hc with rfl | rfl
    · exact le_rfl
    · exact h (by omega)

/-! ## The minimum computed by the fold of pureMkz -/

theorem foldl_min_le_start (f : Nat → Nat) :
    ∀ (l : List Nat) (a : Nat),
      l.foldl (fun w0 x => if f x < w0 then f x else w0) a ≤ a := by
  intro l
  induction l with
  | nil => intro a; exact le_rfl
  | cons x l ih =>
    intro a
    refine le_trans (ih _) ?_
    dsimp only
    split <;> omega

theorem foldl_min_le_mem (f : Nat → Nat) :
    ∀ (l : List Nat) (a : Nat), ∀ y ∈ l,
      l.foldl (fun w0 x => if f x < w0 then f x else w0) a ≤ f y := by
  intro l
  induction l with
  | nil => intro a y hy; cases hy
  | cons x l ih =>
    intro a y hy
    rcases List.mem_cons.mp hy with rfl | hy
    · refine le_trans (foldl_min_le_start f l _) ?_
      dsimp only
      split <;> omega
    · exact ih _ y hy

theorem foldl_min_attained (f : Nat → Nat) :
    ∀ (l : List Nat) (a : Nat),
      l.foldl (fun w0 x => if f x < w0 then f x else w0) a = a ∨
      ∃ y ∈ l, l.foldl (fun w0 x => if f x < w0 then f x else w0) a = f y := by
  intro l
  induction l with
  | nil => intro a; exact Or.inl rfl
  | cons x l ih =>
    intro a
    rcases ih (if f x < a then f x else a) with h | ⟨y, hy, h⟩
    · by_cases hxa : f x < a
      · right
        exact ⟨x, List.mem_cons_self x l, by rw [List.foldl_cons, h, if_pos hxa]⟩
      · left
        rw [List.foldl_cons, h, if_neg hxa]
    · right
      exact ⟨y, List.mem_cons_of_mem x hy, by rw [List.foldl_cons]; exact h⟩

theorem pureMkz_fold_eq_min (mat : filter_matrix_t) (j : Nat) (i : Nat) (rest : List Nat)
    (hR : mat.R j = i :: rest) (w0 : Nat)
    (hmem : w0 ∈ (mat.R j).map (matLengthRow mat))
    (hlb : ∀ x ∈ (mat.R j).map (matLengthRow mat), w0 ≤ x) :
    rest.foldl (fun a x => if matLengthRow mat x < a then matLengthRow mat x else a)
      (matLengthRow mat i) = w0 := by
  rw [hR] at hmem hlb
  set f := matLengthRow mat with hf
  refine le_antisymm ?_ ?_
  · rcases List.mem_map.mp hmem with ⟨y, hy, rfl⟩
    rcases List.mem_cons.mp hy with rfl | hy
    · exact foldl_min_le_start f rest (f y)
    · exact foldl_min_le_mem f rest (f i) y hy
  · rcases foldl_min_attained f rest (f i) with h | ⟨y, hy, h⟩
    · rw [h]
      exact hlb (f i) (List.mem_map.mpr ⟨i, List.mem_cons_self i rest, rfl⟩)
    · rw [h]
      exact hlb (f y) (List.mem_map.mpr ⟨y, List.mem_cons_of_mem i hy, rfl⟩)

/-! ## C1: the pure Markowitz cost policy -/

/-- C1: for every column `j` with `wt[j]` equal to the number of rows
listed for `j`, `pureMkz` returns `-4` when the weight is at most 1,
`-2` when it equals 2, and otherwise `(w0 - 2) * (w - 2) - 2` where `w0`
is the minimum row length among the rows referencing `j`. -/
theorem mkz_C1 (mat : filter_matrix_t) (j : Nat)
    (hpre : mat.wt j = ((mat.R j).length : Int)) :
    (mat.wt j ≤ 1 → pureMkz mat j = -4) ∧
    (mat.wt j = 2 → pureMkz mat j = -2) ∧
    (∀ w0 : Nat, 2 < mat.wt j → IsMinRowLen mat j w0 →
      pureMkz mat j = ((w0 : Int) - 2) * (mat.wt j - 2) - 2) := by
  refine ⟨fun h => by simp [pureMkz, h], fun h => by simp [pureMkz, h], ?_⟩
  intro w0 hw hmin
  obtain ⟨hmem, hlb⟩ := hmin
  cases hR : mat.R j with
  | nil =>
    rw [hR] at hpre
    simp at hpre
    omega
  | cons i rest =>
    have hfold := pureMkz_fold_eq_min mat j i rest hR w0 hmem hlb
    simp only [pureMkz, hR]
    rw [if_neg (by omega), if_neg (by omega), hfold]

/-- Witness for C1: column 0 of `matPure` has weight 3 and referencing
rows of lengths 5, 6, 7, so the cost is `(5 - 2) * (3 - 2) - 2`. -/
theorem mkz_C1_witness :
    pureMkz matPure 0 = ((5 : Int) - 2) * (matPure.wt 0 - 2) - 2 :=
  (mkz_C1 matPure 0 (by decide)).2.2 5 (by decide) ⟨by decide, by decide⟩

/-! ## C4: the light-column policy -/

/-- C4: `lightColAndMkz` returns the pure Markowitz cost for every column
whose weight exceeds `wmstmax`; for weight ≤ 1 it returns `-4`; for
weight 2 with `2 ≤ wmstmax` it returns `weightSum(row0, row1)` minus each
row's own length; and for `3 ≤ weight ≤ wmstmax` it returns the external
MST oracle's cost. -/
theorem mkz_C4 (O : MstOracles) (mat : filter_matrix_t) (j : Nat) :
    (mat.wmstmax < mat.wt j → lightColAndMkz O mat j = pureMkz mat j) ∧
    (mat.wt j ≤ 1 → lightColAndMkz O mat j = -4) ∧
    (∀ i0 i1 rest, mat.R j = i0 :: i1 :: rest → mat.wt j = 2 → 2 ≤ mat.wmstmax →
      lightColAndMkz O mat j =
        O.weightSum i0 i1 j - (matLengthRow mat i0 : Int) - (matLengthRow mat i1 : Int)) ∧
    (3 ≤ mat.wt j → mat.wt j ≤ mat.wmstmax →
      lightColAndMkz O mat j = O.minCostUsingMST (mat.wt j) (mat.R j) j) := by
  refine ⟨?_, ?_, ?_, ?_⟩
  · intro h
    by_cases h1 : mat.wt j ≤ 1
    · simp [lightColAndMkz, pureMkz, h1]
    · unfold lightColAndMkz
      rw [if_neg h1, if_neg (by omega)]
  · intro h
    unfold lightColAndMkz
    rw [if_pos h]
  · intro i0 i1 rest hR h2 hmax
    unfold lightColAndMkz
    rw [if_neg (by omega), if_pos (by omega), if_pos h2, hR]
    simp [List.getD]
  · intro h3 hle
    unfold lightColAndMkz
    rw [if_neg (by omega), if_pos hle, if_neg (by omega)]

/-- Witness for C4: in `matLight`, column 2 is heavier than `wmstmax` and
gets the pure Markowitz cost, column 0 has weight 2 and gets the two-row
combination cost, column 1 has weight 3 and gets the MST oracle's cost. -/
theorem mkz_C4_witness :
    lightColAndMkz O0 matLight 2 = pureMkz matLight 2 ∧
    lightColAndMkz O0 matLight 0 =
      O0.weightSum 3 4 0 - (matLengthRow matLight 3 : Int) - (matLengthRow matLight 4 : Int) ∧
    lightColAndMkz O0 matLight 1 = O0.minCostUsingMST (matLight.wt 1) (matLight.R 1) 1 :=
  ⟨(mkz_C4 O0 matLight 2).1 (by decide),
   (mkz_C4 O0 matLight 0).2.2.1 3 4 [] (by decide) (by decide) (by decide),
   (mkz_C4 O0 matLight 1).2.2.2 (by decide) (by decide)⟩

/-! ## C8: pre-clamp ordering at the weight extremes -/

/-- C8: under the pure Markowitz policy the pre-clamp costs are `-4` for
weight 0 or 1, `-2` for weight 2, and `-2` for weight 3 with minimum
referencing-row length 2; `MkzCount` clamps all three to cost 0, so the
weight-3 boundary case ties with (does not fall below) a weight-2
column after the clamp. -/
theorem mkz_C8 (O : MstOracles) (mat : filter_matrix_t) (j : Nat) :
    ((mat.wt j = 0 ∨ mat.wt j = 1) →
      pureMkz mat j = -4 ∧ (mat.mkztype = .MKZTYPE_PURE → MkzCount O mat j = 0)) ∧
    (mat.wt j = 2 →
      pureMkz mat j = -2 ∧ (mat.mkztype = .MKZTYPE_PURE → MkzCount O mat j = 0)) ∧
    (mat.wt j = 3 → IsMinRowLen mat j 2 →
      pureMkz mat j = -2 ∧ (mat.mkztype = .MKZTYPE_PURE → MkzCount O mat j = 0)) := by
  have hcount : ∀ v : Int, mat.mkztype = .MKZTYPE_PURE → pureMkz mat j = v → v < 0 →
      MkzCount O mat j = 0 := by
    intro v htype hv hneg
    unfold MkzCount
    rw [htype]
    simp only [hv]
    rw [if_pos hneg]
  refine ⟨?_, ?_, ?_⟩
  · intro h
    have h4 : pureMkz mat j = -4 := by
      unfold pureMkz
      rw [if_pos (by omega)]
    exact ⟨h4, fun ht => hcount _ ht h4 (by omega)⟩
  · intro h
    have h2 : pureMkz mat j = -2 := by
      unfold pureMkz
      rw [if_neg (by omega), if_pos h]
    exact ⟨h2, fun ht => hcount _ ht h2 (by omega)⟩
  · intro h3 hmin
    obtain ⟨hmem, hlb⟩ := hmin
    cases hR : mat.R j with
    | nil =>
      rw [hR] at hmem
      simp at hmem
    | cons i rest =>
      have hfold := pureMkz_fold_eq_min mat j i rest hR 2 hmem hlb
      have h2 : pureMkz mat j = -2 := by
        simp only [pureMkz, hR]
        rw [if_neg (by omega), if_neg (by omega), hfold, h3]
        norm_num
      exact ⟨h2, fun ht => hcount _ ht h2 (by omega)⟩

/-- Witness for C8: in `matPure` column 1 has weight 0; in `matW3`
column 1 has weight 2 and column 0 has weight 3 with minimum
referencing-row length 2; the pre-clamp values are `-4`, `-2`, `-2` and
the clamped counts are 0. -/
theorem mkz_C8_witness :
    pureMkz matPure 1 = -4 ∧ MkzCount O0 matPure 1 = 0 ∧
    pureMkz matW3 1 = -2 ∧ pureMkz matW3 0 = -2 ∧ MkzCount O0 matW3 0 = 0 :=
  ⟨((mkz_C8 O0 matPure 1).1 (Or.inl (by decide))).1,
   ((mkz_C8 O0 matPure 1).1 (Or.inl (by decide))).2 (by decide),
   ((mkz_C8 O0 matW3 1).2.1 (by decide)).1,
   ((mkz_C8 O0 matW3 0).2.2 (by decide) ⟨by decide, by decide⟩).1,
   ((mkz_C8 O0 matW3 0).2.2 (by decide) ⟨by decide, by decide⟩).2 (by decide)⟩

/-! ## C9: failure semantics of MkzUpdate on a dead column -/

/-- C9: calling `MkzUpdate` on a dead column (`A[j] = MKZ_INF`) hits the
fatal `ASSERT(adr != MKZ_INF)` and never returns a state; on an alive
column the assertion is unreachable and the update proceeds. -/
theorem mkz_C9 (O : MstOracles) (mat : filter_matrix_t) (j : Nat) :
    (MkzIsAlive mat.MKZ.A j = false → MkzUpdate O mat j = none) ∧
    (MkzIsAlive mat.MKZ.A j = true → ∃ mat', MkzUpdate O mat j = some mat') := by
  cases hA : mat.MKZ.A j <;> simp [MkzIsAlive, MkzUpdate, hA]

/-- Witness for C9: in `matEx`, column 5 is dead (the update aborts) and
column 0 is alive (the update returns a state). -/
theorem mkz_C9_witness :
    MkzUpdate O0 matEx 5 = none ∧ ∃ mat', MkzUpdate O0 matEx 0 = some mat' :=
  ⟨(mkz_C9 O0 matEx 5).1 (by decide), (mkz_C9 O0 matEx 0).2 (by decide)⟩

/-! ## Bijection preservation through the sift loops -/

theorem bijHole_assign (q : MkzQueue) (k m dj : Nat) (P : Nat → Nat)
    (hB : BijHole q k dj P) (hm1 : 1 ≤ m) (hmn : m ≤ q.n) (hmk : m ≠ k) :
    BijHole (MkzAssign q k m) m dj P := by
  obtain ⟨hk1, hkn, hleft, hright, hnotdj, halive⟩ := hB
  have hApm : q.A (q.Q m).1 = some m := hleft m hm1 hmn hmk
  have hpdj : (q.Q m).1 ≠ dj := hnotdj m hm1 hmn hmk
  have hn : (MkzAssign q k m).n = q.n := rfl
  refine ⟨hm1, by rw [hn]; exact hmn, ?_, ?_, ?_, ?_⟩
  · intro s hs1 hsn hsm
    rw [hn] at hsn
    rw [mkzAssign_Q, mkzAssign_A]
    by_cases hsk : s = k
    · subst hsk
      rw [if_pos rfl]
      dsimp only
      rw [if_pos rfl]
    · rw [if_neg hsk]
      have hne : (q.Q s).1 ≠ (q.Q m).1 := by
        intro he
        have h1 := hleft s hs1 hsn hsk
        rw [he, hApm] at h1
        exact hsm (Option.some.inj h1).symm
      rw [if_neg hne]
      exact hleft s hs1 hsn hsk
  · intro c s hcdj hAc
    rw [mkzAssign_A] at hAc
    by_cases hcp : c = (q.Q m).1
    · rw [if_pos hcp] at hAc
      have hsk : s = k := (Option.some.inj hAc).symm
      subst hsk
      have hAcm : q.A c = some m := by rw [hcp]; exact hApm
      obtain ⟨_, _, _, _, hcost⟩ := hright c m hcdj hAcm
      refine ⟨hk1, by rw [hn]; exact hkn, Ne.symm hmk, ?_, ?_⟩
      · rw [mkzAssign_Q, if_pos rfl]
        exact hcp.symm
      · rw [mkzAssign_Q, if_pos rfl]
        dsimp only
        rw [← hcost]
    · rw [if_neg hcp] at hAc
      obtain ⟨hs1, hsn, hsk, hQs1, hQs2⟩ := hright c s hcdj hAc
      have hsm : s ≠ m := by
        intro he
        rw [he] at hQs1
        exact hcp hQs1.symm
      refine ⟨hs1, by rw [hn]; exact hsn, hsm, ?_, ?_⟩
      · rw [mkzAssign_Q, if_neg hsk]
        exact hQs1
      · rw [mkzAssign_Q, if_neg hsk]
        exact hQs2
  · intro s hs1 hsn hsm
    rw [hn] at hsn
    rw [mkzAssign_Q]
    by_cases hsk : s = k
    · rw [if_pos hsk]
      exact hpdj
    · rw [if_neg hsk]
      exact hnotdj s hs1 hsn hsk
  · rw [mkzAssign_A, if_neg (Ne.symm hpdj)]
    exact halive

theorem mkzAssign_none_iff (q : MkzQueue) (k m : Nat)
    (hAm : q.A (q.Q m).1 = some m) (c : Nat) :
    (MkzAssign q k m).A c = none ↔ q.A c = none := by
  rw [mkzAssign_A]
  by_cases hc : c = (q.Q m).1
  · subst hc
    rw [if_pos rfl]
    simp [hAm]
  · rw [if_neg hc]

theorem bijHole_finalize (q : MkzQueue) (k dj count : Nat) (P : Nat → Nat)
    (hB : BijHole q k dj P) (q' : MkzQueue)
    (hq' : q' = { q with Q := Function.update q.Q k (dj, count),
                         A := Function.update q.A dj (some k) }) :
    q'.n = q.n ∧ Bijection q' ∧ q'.A dj = some k ∧ q'.Q k = (dj, count) ∧
    (∀ c s, c ≠ dj → q'.A c = some s → q'.Q s = (c, P c)) ∧
    (∀ c, q'.A c = none ↔ q.A c = none) := by
  subst hq'
  obtain ⟨hk1, hkn, hleft, hright, hnotdj, halive⟩ := hB
  refine ⟨rfl, ⟨?_, ?_⟩, ?_, ?_, ?_, ?_⟩
  · intro s hs1 hsn
    simp only [Function.update_apply]
    by_cases hsk : s = k
    · subst hsk
      rw [if_pos rfl]
      dsimp only
      rw [if_pos rfl]
    · rw [if_neg hsk]
      rw [if_neg (hnotdj s hs1 hsn hsk)]
      exact hleft s hs1 hsn hsk
  · intro c s hAc
    simp only [Function.update_apply] at hAc
    by_cases hcdj : c = dj
    · subst hcdj
      rw [if_pos rfl] at hAc
      have hsk : s = k := (Option.some.inj hAc).symm
      subst hsk
      refine ⟨hk1, hkn, ?_⟩
      simp [Function.update_apply]
    · rw [if_neg hcdj] at hAc
      obtain ⟨hs1, hsn, hsk, hQs1, _⟩ := hright c s hcdj hAc
      refine ⟨hs1, hsn, ?_⟩
      simp only [Function.update_apply, if_neg hsk]
      exact hQs1
  · simp [Function.update_apply]
  · simp [Function.update_apply]
  · intro c s hcdj hAc
    simp only [Function.update_apply, if_neg hcdj] at hAc
    obtain ⟨hs1, hsn, hsk, hQs1, hQs2⟩ := hright c s hcdj hAc
    simp only [Function.update_apply, if_neg hsk]
    calc q.Q s = ((q.Q s).1, (q.Q s).2) := rfl
    _ = (c, P c) := by rw [hQs1, hQs2]
  · intro c
    simp only [Function.update_apply]
    by_cases hcdj : c = dj
    · subst hcdj
      rw [if_pos rfl]
      simp only [reduceCtorEq, false_iff]
      exact halive
    · rw [if_neg hcdj]

theorem mkzUpQueueLoop_bij (dj count : Nat) :
    ∀ k q (P : Nat → Nat), BijHole q k dj P →
      (MkzUpQueueLoop q dj count k).n = q.n ∧
      Bijection (MkzUpQueueLoop q dj count k) ∧
      (∃ kf, 1 ≤ kf ∧ kf ≤ q.n ∧ (MkzUpQueueLoop q dj count k).A dj = some kf ∧
        (MkzUpQueueLoop q dj count k).Q kf = (dj, count)) ∧
      (∀ c s, c ≠ dj → (MkzUpQueueLoop q dj count k).A c = some s →
        (MkzUpQueueLoop q dj count k).Q s = (c, P c)) ∧
      (∀ c, (MkzUpQueueLoop q dj count k).A c = none ↔ q.A c = none) := by
  intro k
  induction k using Nat.strong_induction_on with
  | _ k ih =>
    intro q P hB
    have hk1 : 1 ≤ k := hB.1
    have hkn : k ≤ q.n := hB.2.1
    rw [MkzUpQueueLoop.eq_def]
    split
    · rename_i h
      have hB' := bijHole_assign q k (k / 2) dj P hB (by omega) (by omega) (by omega)
      obtain ⟨hn, hbij, ⟨kf, hkf1, hkf2, hkf3, hkf4⟩, hcost, hnone⟩ :=
        ih (k / 2) (by omega) (MkzAssign q k (k / 2)) P hB'
      have hAm : q.A (q.Q (k / 2)).1 = some (k / 2) :=
        hB.2.2.1 (k / 2) (by omega) (by omega) (by omega)
      refine ⟨hn, hbij, ⟨kf, hkf1, hkf2, hkf3, hkf4⟩, hcost, ?_⟩
      intro c
      exact (hnone c).trans (mkzAssign_none_iff q k (k / 2) hAm c)
    · rename_i h
      obtain ⟨hn, hbij, hAdj, hQk, hcost, hnone⟩ :=
        bijHole_finalize q k dj count P hB _ rfl
      exact ⟨hn, hbij, ⟨k, hk1, hkn, hAdj, hQk⟩, hcost, hnone⟩

theorem mkzDownQueueLoop_bij (dj count : Nat) :
    ∀ m k q (P : Nat → Nat), q.n + 1 - k ≤ m → BijHole q k dj P →
      (MkzDownQueueLoop q dj count k).n = q.n ∧
      Bijection (MkzDownQueueLoop q dj count k) ∧
      (∃ kf, 1 ≤ kf ∧ kf ≤ q.n ∧ (MkzDownQueueLoop q dj count k).A dj = some kf ∧
        (MkzDownQueueLoop q dj count k).Q kf = (dj, count)) ∧
      (∀ c s, c ≠ dj → (MkzDownQueueLoop q dj count k).A c = some s →
        (MkzDownQueueLoop q dj count k).Q s = (c, P c)) ∧
      (∀ c, (MkzDownQueueLoop q dj count k).A c = none ↔ q.A c = none) := by
  intro m
  induction m with
  | zero =>
    intro k q P hm hB
    have hk1 : 1 ≤ k := hB.1
    have hkn : k ≤ q.n := hB.2.1
    rw [MkzDownQueueLoop.eq_def, dif_neg (by omega)]
    obtain ⟨hn, hbij, hAdj, hQk, hcost, hnone⟩ :=
      bijHole_finalize q k dj count P hB _ rfl
    exact ⟨hn, hbij, ⟨k, hk1, hkn, hAdj, hQk⟩, hcost, hnone⟩
  | succ m ih =>
    intro k q P hm hB
    have hk1 : 1 ≤ k := hB.1
    have hkn : k ≤ q.n := hB.2.1
    rw [MkzDownQueueLoop.eq_def]
    split
    · rename_i h
      have hson1 : 2 * k ≤ MkzSmallerSon q k := mkzSmallerSon_lb q k
      have hson2 : MkzSmallerSon q k ≤ q.n := mkzSmallerSon_ub q k h.2
      split
      · rename_i hbreak
        obtain ⟨hn, hbij, hAdj, hQk, hcost, hnone⟩ :=
          bijHole_finalize q k dj count P hB _ rfl
        exact ⟨hn, hbij, ⟨k, hk1, hkn, hAdj, hQk⟩, hcost, hnone⟩
      · rename_i hmove
        have hB' := bijHole_assign q k (MkzSmallerSon q k) dj P hB
          (by omega) hson2 (by omega)
        obtain ⟨hn, hbij, ⟨kf, hkf1, hkf2, hkf3, hkf4⟩, hcost, hnone⟩ :=
          ih (MkzSmallerSon q k) (MkzAssign q k (MkzSmallerSon q k)) P
            (by simp only [mkzAssign_n]; omega) hB'
        have hAm : q.A (q.Q (MkzSmallerSon q k)).1 = some (MkzSmallerSon q k) :=
          hB.2.2.1 (MkzSmallerSon q k) (by omega) hson2 (by omega)
        refine ⟨hn, hbij, ⟨kf, hkf1, hkf2, hkf3, hkf4⟩, hcost, ?_⟩
        intro c
        exact (hnone c).trans (mkzAssign_none_iff q k (MkzSmallerSon q k) hAm c)
    · rename_i h
      obtain ⟨hn, hbij, hAdj, hQk, hcost, hnone⟩ :=
        bijHole_finalize q k dj count P hB _ rfl
      exact ⟨hn, hbij, ⟨k, hk1, hkn, hAdj, hQk⟩, hcost, hnone⟩

/-! ## Heap preservation through the sift loops -/

theorem upInv_step (q : MkzQueue) (k count : Nat) (h1 : 1 < k) (hkn : k ≤ q.n)
    (hc : count ≤ (q.Q (k / 2)).2) (hInv : UpInv q k count) :
    UpInv (MkzAssign q k (k / 2)) (k / 2) count := by
  obtain ⟨ha, hb, hcgp⟩ := hInv
  refine ⟨?_, ?_, ?_⟩
  · intro c h2c hcn hck2 hcd2
    have hcn' : c ≤ q.n := hcn
    rw [mkzAssign_Q, mkzAssign_Q]
    by_cases hck : c = k
    · exact absurd (by omega : c / 2 = k / 2) hcd2
    · rw [if_neg hck]
      by_cases hcd : c / 2 = k
      · rw [if_pos hcd]
        dsimp only
        exact hcgp h1 c (by omega) hcn'
      · rw [if_neg hcd]
        exact ha c h2c hcn' hck hcd
  · intro c hcc hcn
    have hcn' : c ≤ q.n := hcn
    rw [mkzAssign_Q]
    by_cases hck : c = k
    · rw [if_pos hck]
      dsimp only
      exact hc
    · rw [if_neg hck]
      have hQc : (q.Q (c / 2)).2 ≤ (q.Q c).2 := ha c (by omega) hcn' hck (by omega)
      rw [show c / 2 = k / 2 by omega] at hQc
      omega
  · intro hk2 c hcc hcn
    have hcn' : c ≤ q.n := hcn
    rw [mkzAssign_Q, mkzAssign_Q, if_neg (show k / 2 / 2 ≠ k by omega)]
    have hmid : (q.Q (k / 2 / 2)).2 ≤ (q.Q (k / 2)).2 :=
      ha (k / 2) (by omega) (by omega) (by omega) (by omega)
    by_cases hck : c = k
    · rw [if_pos hck]
      dsimp only
      exact hmid
    · rw [if_neg hck]
      have hQc : (q.Q (c / 2)).2 ≤ (q.Q c).2 := ha c (by omega) hcn' hck (by omega)
      rw [show c / 2 = k / 2 by omega] at hQc
      omega

theorem upInv_exit (q : MkzQueue) (k count dj : Nat) (h1 : 1 ≤ k) (hkn : k ≤ q.n)
    (hInv : UpInv q k count)
    (hstop : k = 1 ∨ (q.Q (k / 2)).2 < count)
    (q' : MkzQueue)
    (hq' : q' = { q with Q := Function.update q.Q k (dj, count),
                         A := Function.update q.A dj (some k) }) :
    HeapParent q' := by
  subst hq'
  obtain ⟨ha, hb, _⟩ := hInv
  intro c h2c hcn
  have hcn' : c ≤ q.n := hcn
  dsimp only
  simp only [Function.update_apply]
  by_cases hck : c = k
  · rw [if_pos hck, if_neg (show c / 2 ≠ k by omega)]
    dsimp only
    rcases hstop with hstop | hstop
    · omega
    · have : (q.Q (c / 2)).2 < count := by rw [show c / 2 = k / 2 by omega]; exact hstop
      omega
  · rw [if_neg hck]
    by_cases hcd : c / 2 = k
    · rw [if_pos hcd]
      dsimp only
      exact hb c (by omega) hcn'
    · rw [if_neg hcd]
      exact ha c h2c hcn' hck hcd

theorem mkzUpQueueLoop_heap (dj count : Nat) :
    ∀ k q, 1 ≤ k → k ≤ q.n → UpInv q k count →
      HeapParent (MkzUpQueueLoop q dj count k) := by
  intro k
  induction k using Nat.strong_induction_on with
  | _ k ih =>
    intro q hk1 hkn hInv
    rw [MkzUpQueueLoop.eq_def]
    split
    · rename_i h
      exact ih (k / 2) (by omega) (MkzAssign q k (k / 2)) (by omega)
        (show k / 2 ≤ q.n by omega) (upInv_step q k count h.1 hkn h.2 hInv)
    · rename_i h
      refine upInv_exit q k count dj hk1 hkn hInv ?_ _ rfl
      by_cases hk : k = 1
      · exact Or.inl hk
      · push_neg at h
        exact Or.inr (by have := h (by omega); omega)

theorem downInv_step (q : MkzQueue) (k count : Nat) (hk1 : 1 ≤ k) (h2k : 2 * k ≤ q.n)
    (hInv : DownInv q k count)
    (hmove : (q.Q (MkzSmallerSon q k)).2 < count) :
    DownInv (MkzAssign q k (MkzSmallerSon q k)) (MkzSmallerSon q k) count := by
  obtain ⟨ha, hpar, hgp⟩ := hInv
  have hjlb : 2 * k ≤ MkzSmallerSon q k := mkzSmallerSon_lb q k
  have hjub : MkzSmallerSon q k ≤ q.n := mkzSmallerSon_ub q k h2k
  have hjcases := mkzSmallerSon_cases q k
  have hjmin := mkzSmallerSon_min q k
  refine ⟨?_, ?_, ?_⟩
  · intro c h2c hcn hcj hcdj
    have hcn' : c ≤ q.n := hcn
    rw [mkzAssign_Q, mkzAssign_Q]
    by_cases hck : c = k
    · rw [if_pos hck, if_neg (show c / 2 ≠ k by omega)]
      dsimp only
      have := hgp (by omega) (MkzSmallerSon q k) hjcases hjub
      rw [show c / 2 = k / 2 by omega]
      exact this
    · rw [if_neg hck]
      by_cases hcd : c / 2 = k
      · rw [if_pos hcd]
        dsimp only
        exact hjmin c (by omega) hcn'
      · rw [if_neg hcd]
        exact ha c h2c hcn' hck hcd
  · intro hj1
    rw [mkzAssign_Q, show MkzSmallerSon q k / 2 = k by omega, if_pos rfl]
    dsimp only
    omega
  · intro hj1 c hcc hcn
    have hcn' : c ≤ q.n := hcn
    rw [mkzAssign_Q, mkzAssign_Q, show MkzSmallerSon q k / 2 = k by omega, if_pos rfl,
      if_neg (show c ≠ k by omega)]
    dsimp only
    have hQc : (q.Q (c / 2)).2 ≤ (q.Q c).2 := ha c (by omega) hcn' (by omega) (by omega)
    rw [show c / 2 = MkzSmallerSon q k by omega] at hQc
    exact hQc

theorem downInv_exit (q : MkzQueue) (k count dj : Nat) (hk1 : 1 ≤ k) (hkn : k ≤ q.n)
    (hInv : DownInv q k count)
    (hstop : 2 * k ≤ q.n → count ≤ (q.Q (MkzSmallerSon q k)).2)
    (q' : MkzQueue)
    (hq' : q' = { q with Q := Function.update q.Q k (dj, count),
                         A := Function.update q.A dj (some k) }) :
    HeapParent q' := by
  subst hq'
  obtain ⟨ha, hpar, _⟩ := hInv
  intro c h2c hcn
  have hcn' : c ≤ q.n := hcn
  dsimp only
  simp only [Function.update_apply]
  by_cases hck : c = k
  · rw [if_pos hck, if_neg (show c / 2 ≠ k by omega)]
    dsimp only
    have := hpar (by omega)
    rw [show c / 2 = k / 2 by omega]
    exact this
  · rw [if_neg hck]
    by_cases hcd : c / 2 = k
    · rw [if_pos hcd]
      dsimp only
      have h2kn : 2 * k ≤ q.n := by omega
      have hbreak := hstop h2kn
      have hmin := mkzSmallerSon_min q k c (by omega) hcn'
      omega
    · rw [if_neg hcd]
      exact ha c h2c hcn' hck hcd

theorem mkzDownQueueLoop_heap (dj count : Nat) :
    ∀ m k q, q.n + 1 - k ≤ m → 1 ≤ k → k ≤ q.n → DownInv q k count →
      HeapParent (MkzDownQueueLoop q dj count k) := by
  intro m
  induction m with
  | zero =>
    intro k q hm hk1 hkn hInv
    rw [MkzDownQueueLoop.eq_def, dif_neg (by omega)]
    exact downInv_exit q k count dj hk1 hkn hInv
      (fun h2k => absurd h2k (by omega)) _ rfl
  | succ m ih =>
    intro k q hm hk1 hkn hInv
    rw [MkzDownQueueLoop.eq_def]
    split
    · rename_i h
      split
      · rename_i hbreak
        exact downInv_exit q k count dj hk1 hkn hInv (fun _ => hbreak) _ rfl
      · rename_i hmove
        push_neg at hmove
        have hjlb := mkzSmallerSon_lb q k
        have hjub := mkzSmallerSon_ub q k h.2
        exact ih (MkzSmallerSon q k) (MkzAssign q k (MkzSmallerSon q k))
          (show q.n + 1 - MkzSmallerSon q k ≤ m by omega) (by omega)
          (show MkzSmallerSon q k ≤ q.n from hjub)
          (downInv_step q k count hk1 h.2 hInv hmove)
    · rename_i h
      exact downInv_exit q k count dj hk1 hkn hInv
        (fun h2k => absurd h2k (by omega)) _ rfl

/-! ## MkzMoveUpOrDown: combined bijection and heap restoration -/

theorem mkzMoveUpOrDown_bij (q : MkzQueue) (k dj : Nat) (P : Nat → Nat)
    (hdj : (q.Q k).1 = dj) (hB : BijHole q k dj P) :
    (MkzMoveUpOrDown q k).n = q.n ∧
    Bijection (MkzMoveUpOrDown q k) ∧
    (∃ kf, 1 ≤ kf ∧ kf ≤ q.n ∧ (MkzMoveUpOrDown q k).A dj = some kf ∧
      (MkzMoveUpOrDown q k).Q kf = (dj, (q.Q k).2)) ∧
    (∀ c s, c ≠ dj → (MkzMoveUpOrDown q k).A c = some s →
      (MkzMoveUpOrDown q k).Q s = (c, P c)) ∧
    (∀ c, (MkzMoveUpOrDown q k).A c = none ↔ q.A c = none) := by
  unfold MkzMoveUpOrDown MkzUpQueue MkzDownQueue
  rw [hdj]
  split
  · rename_i hk1
    subst hk1
    exact mkzDownQueueLoop_bij dj (q.Q 1).2 q.n 1 q P (by omega) hB
  · rename_i hk1
    split
    · exact mkzUpQueueLoop_bij dj (q.Q k).2 k q P hB
    · exact mkzDownQueueLoop_bij dj (q.Q k).2 q.n k q P
        (by have := hB.1; omega) hB

theorem mkzMoveUpOrDown_heapRestore (q : MkzQueue) (k : Nat)
    (hk1 : 1 ≤ k) (hkn : k ≤ q.n) (hH : HeapExceptAt q k) :
    HeapParent (MkzMoveUpOrDown q k) := by
  obtain ⟨ha, hgp⟩ := hH
  unfold MkzMoveUpOrDown MkzUpQueue MkzDownQueue
  split
  · rename_i hke
    subst hke
    refine mkzDownQueueLoop_heap (q.Q 1).1 (q.Q 1).2 q.n 1 q (by omega) (by omega) hkn ?_
    exact ⟨ha, fun h => absurd h (by omega), fun h => absurd h (by omega)⟩
  · rename_i hke
    split
    · rename_i hup
      refine mkzUpQueueLoop_heap (q.Q k).1 (q.Q k).2 k q hk1 hkn ?_
      refine ⟨ha, ?_, hgp⟩
      intro c hcc hcn
      have := hgp (by omega) c hcc hcn
      omega
    · rename_i hdown
      refine mkzDownQueueLoop_heap (q.Q k).1 (q.Q k).2 q.n k q (by omega) hk1 hkn ?_
      refine ⟨ha, fun h1k => by omega, hgp⟩

/-! ## The state right after the cost write of MkzUpdate -/

theorem bijHole_writeCost (q : MkzQueue) (j adr mkz : Nat)
    (hBij : Bijection q) (hA : q.A j = some adr) :
    BijHole (MkzWriteCost q adr mkz) adr j (fun c => (q.Q ((q.A c).getD 0)).2) := by
  obtain ⟨hleft, hright⟩ := hBij
  obtain ⟨h1, hn, hQ1⟩ := hright j adr hA
  have hq : ∀ s, s ≠ adr → (MkzWriteCost q adr mkz).Q s = q.Q s := by
    intro s hs
    simp [MkzWriteCost, Function.update_apply, hs]
  have hqa : (MkzWriteCost q adr mkz).A = q.A := rfl
  refine ⟨h1, hn, ?_, ?_, ?_, ?_⟩
  · intro s hs1 hsn hsk
    rw [hq s hsk, hqa]
    exact hleft s hs1 hsn
  · intro c s hcj hAc
    rw [hqa] at hAc
    obtain ⟨hs1, hsn, hQs⟩ := hright c s hAc
    have hsadr : s ≠ adr := by
      intro he
      rw [he, hQ1] at hQs
      exact hcj hQs.symm
    refine ⟨hs1, hsn, hsadr, ?_, ?_⟩
    · rw [hq s hsadr]
      exact hQs
    · rw [hq s hsadr]
      show (q.Q s).2 = (q.Q ((q.A c).getD 0)).2
      rw [hAc]
      rfl
  · intro s hs1 hsn hsk
    rw [hq s hsk]
    intro he
    have hh := hleft s hs1 hsn
    rw [he, hA] at hh
    exact hsk (Option.some.inj hh).symm
  · rw [hqa, hA]
    simp

theorem heapExceptAt_writeCost (q : MkzQueue) (adr mkz : Nat) (hH : HeapParent q)
    (h1 : 1 ≤ adr) (hn : adr ≤ q.n) :
    HeapExceptAt (MkzWriteCost q adr mkz) adr := by
  have hq : ∀ s, s ≠ adr → (MkzWriteCost q adr mkz).Q s = q.Q s := by
    intro s hs
    simp [MkzWriteCost, Function.update_apply, hs]
  constructor
  · intro c h2c hcn hck hcd
    have hcn' : c ≤ q.n := hcn
    rw [hq c hck, hq _ hcd]
    exact hH c h2c hcn'
  · intro hadr c hcc hcn
    have hcn' : c ≤ q.n := hcn
    rw [hq _ (show adr / 2 ≠ adr by omega), hq c (by omega)]
    have hpc : (q.Q (adr / 2)).2 ≤ (q.Q adr).2 := hH adr (by omega) hn
    have hcc2 : (q.Q (c / 2)).2 ≤ (q.Q c).2 := hH c (by omega) hcn'
    rw [show c / 2 = adr by omega] at hcc2
    omega

/-! ## Master specification of MkzUpdate -/

theorem mkzUpdate_spec (O : MstOracles) (mat mat' : filter_matrix_t) (j : Nat)
    (hBij : Bijection mat.MKZ)
    (h : MkzUpdate O mat j = some mat') :
    mat'.wt = mat.wt ∧ mat'.R = mat.R ∧ mat'.rowLen = mat.rowLen ∧
    mat'.wmstmax = mat.wmstmax ∧ mat'.mkztype = mat.mkztype ∧
    mat'.MKZ.n = mat.MKZ.n ∧ Bijection mat'.MKZ ∧
    (∃ kf, 1 ≤ kf ∧ kf ≤ mat.MKZ.n ∧ mat'.MKZ.A j = some kf ∧
      mat'.MKZ.Q kf = (j, (MkzCount O mat j).toNat)) ∧
    (∀ c s s', c ≠ j → mat.MKZ.A c = some s → mat'.MKZ.A c = some s' →
      mat'.MKZ.Q s' = (c, (mat.MKZ.Q s).2)) ∧
    (∀ c, mat'.MKZ.A c = none ↔ mat.MKZ.A c = none) ∧
    (HeapParent mat.MKZ → HeapParent mat'.MKZ) := by
  cases hA : mat.MKZ.A j with
  | none => simp [MkzUpdate, hA] at h
  | some adr =>
    simp only [MkzUpdate, hA] at h
    obtain ⟨h1adr, hnadr, hQadr1⟩ := hBij.2 j adr hA
    have hmat' : mat' =
        { mat with MKZ := (MkzMoveUpOrDown
            (MkzWriteCost mat.MKZ adr (MkzCount O mat j).toNat) adr) } :=
      (Option.some.inj h).symm
    subst hmat'
    have hB1 : BijHole (MkzWriteCost mat.MKZ adr (MkzCount O mat j).toNat) adr j
        (fun c => (mat.MKZ.Q ((mat.MKZ.A c).getD 0)).2) :=
      bijHole_writeCost mat.MKZ j adr (MkzCount O mat j).toNat hBij hA
    have hdj1 : ((MkzWriteCost mat.MKZ adr (MkzCount O mat j).toNat).Q adr).1 = j := by
      simp only [MkzWriteCost, Function.update_same]
      exact hQadr1
    have hcnt1 : ((MkzWriteCost mat.MKZ adr (MkzCount O mat j).toNat).Q adr).2 =
        (MkzCount O mat j).toNat := by
      simp only [MkzWriteCost, Function.update_same]
    obtain ⟨hn, hbij, ⟨kf, hkf1, hkf2, hkf3, hkf4⟩, hcost, hnone⟩ :=
      mkzMoveUpOrDown_bij (MkzWriteCost mat.MKZ adr (MkzCount O mat j).toNat) adr j
        (fun c => (mat.MKZ.Q ((mat.MKZ.A c).getD 0)).2) hdj1 hB1
    refine ⟨rfl, rfl, rfl, rfl, rfl, hn, hbij, ?_, ?_, ?_, ?_⟩
    · refine ⟨kf, hkf1, hkf2, hkf3, ?_⟩
      rw [hkf4, hcnt1]
    · intro c s s' hcj hAc hAc'
      have hres := hcost c s' hcj hAc'
      rw [hres]
      show (c, (mat.MKZ.Q ((mat.MKZ.A c).getD 0)).2) = (c, (mat.MKZ.Q s).2)
      rw [hAc]
      rfl
    · intro c
      exact hnone c
    · intro hHeap
      exact mkzMoveUpOrDown_heapRestore
        (MkzWriteCost mat.MKZ adr (MkzCount O mat j).toNat) adr h1adr hnadr
        (heapExceptAt_writeCost mat.MKZ adr (MkzCount O mat j).toNat hHeap h1adr hnadr)

/-! ## MkzCount reads only the matrix data, never the queue -/

theorem mkzCount_congr (O : MstOracles) (m m' : filter_matrix_t) (j : Nat)
    (h1 : m'.wt = m.wt) (h2 : m'.R = m.R) (h3 : m'.rowLen = m.rowLen)
    (h4 : m'.wmstmax = m.wmstmax) (h5 : m'.mkztype = m.mkztype) :
    MkzCount O m' j = MkzCount O m j := by
  unfold MkzCount Cavallar lightColAndMkz pureMkz matLengthRow
  rw [h1, h2, h3, h4, h5]

/-! ## A slot already storing its correct cost is a fixed point -/

theorem downQueueLoop_stable (q : MkzQueue) (k : Nat) (hk1 : 1 ≤ k) (hkn : k ≤ q.n)
    (hHeap : HeapParent q) (hA : q.A (q.Q k).1 = some k) :
    MkzDownQueueLoop q (q.Q k).1 (q.Q k).2 k = q := by
  have hexit : ({ q with Q := Function.update q.Q k ((q.Q k).1, (q.Q k).2),
                         A := Function.update q.A (q.Q k).1 (some k) } : MkzQueue) = q := by
    have h1 : Function.update q.Q k ((q.Q k).1, (q.Q k).2) = q.Q := by
      have hp : ((q.Q k).1, (q.Q k).2) = q.Q k := rfl
      rw [hp]
      exact Function.update_eq_self k q.Q
    have h2 : Function.update q.A (q.Q k).1 (some k) = q.A := by
      conv_lhs => rw [← hA]
      exact Function.update_eq_self (q.Q k).1 q.A
    rw [h1, h2]
  rw [MkzDownQueueLoop.eq_def]
  split
  · rename_i h
    have hjlb := mkzSmallerSon_lb q k
    have hjub := mkzSmallerSon_ub q k h.2
    have hjcases := mkzSmallerSon_cases q k
    have hcond : (q.Q k).2 ≤ (q.Q (MkzSmallerSon q k)).2 := by
      have hh := hHeap (MkzSmallerSon q k) (by omega) hjub
      rw [show MkzSmallerSon q k / 2 = k by omega] at hh
      exact hh
    rw [if_pos hcond]
    exact hexit
  · exact hexit

theorem moveUpOrDown_stable (q : MkzQueue) (k : Nat) (hk1 : 1 ≤ k) (hkn : k ≤ q.n)
    (hHeap : HeapParent q) (hA : q.A (q.Q k).1 = some k) :
    MkzMoveUpOrDown q k = q := by
  unfold MkzMoveUpOrDown MkzDownQueue
  split
  · exact downQueueLoop_stable q k hk1 hkn hHeap hA
  · split
    · rename_i hke hup
      exfalso
      have := hHeap k (by omega) hkn
      omega
    · exact downQueueLoop_stable q k hk1 hkn hHeap hA

theorem mkzUpdate_stable (O : MstOracles) (mat : filter_matrix_t) (j kf : Nat)
    (hHeap : HeapParent mat.MKZ) (hA : mat.MKZ.A j = some kf)
    (h1 : 1 ≤ kf) (hn : kf ≤ mat.MKZ.n)
    (hQ : mat.MKZ.Q kf = (j, (MkzCount O mat j).toNat)) :
    MkzUpdate O mat j = some mat := by
  have hwc : MkzWriteCost mat.MKZ kf (MkzCount O mat j).toNat = mat.MKZ := by
    unfold MkzWriteCost
    have hp : ((mat.MKZ.Q kf).1, (MkzCount O mat j).toNat) = mat.MKZ.Q kf := by
      rw [hQ]
    rw [hp, Function.update_eq_self]
  have hA2 : mat.MKZ.A (mat.MKZ.Q kf).1 = some kf := by
    rw [hQ]
    exact hA
  simp only [MkzUpdate, hA]
  rw [hwc, moveUpOrDown_stable mat.MKZ kf h1 hn hHeap hA2]

/-! ## Concrete-state helper lemmas -/

theorem heapParent_matEx : HeapParent matEx.MKZ := by
  intro c h2c hcn
  have hcn' : c ≤ 2 := hcn
  have hc2 : c = 2 := by omega
  subst hc2
  decide

theorem bijection_matEx : Bijection matEx.MKZ := by
  constructor
  · intro k hk1 hkn
    have hkn' : k ≤ 2 := hkn
    have hk12 : k = 1 ∨ k = 2 := by omega
    rcases hk12 with rfl | rfl <;> decide
  · intro c k hAc
    by_cases h0 : c = 0
    · subst h0
      have hk : k = 1 := by
        have he : matEx.MKZ.A 0 = some 1 := rfl
        rw [he] at hAc
        exact (Option.some.inj hAc).symm
      subst hk
      decide
    · by_cases h1 : c = 1
      · subst h1
        have hk : k = 2 := by
          have he : matEx.MKZ.A 1 = some 2 := rfl
          rw [he] at hAc
          exact (Option.some.inj hAc).symm
        subst hk
        decide
      · have he : matEx.MKZ.A c = none := by
          show qEx.A c = none
          simp [qEx, h0, h1]
        rw [he] at hAc
        cases hAc

/-! ## C6: idempotence of UpdateCost -/

/-- C6: for every queue state satisfying the heap and bijection
invariants and every alive column `j`, running `MkzUpdate` twice with no
intervening matrix mutation yields exactly the same state (`Q` and `A`)
after the second call as after the first. -/
theorem mkz_C6 (O : MstOracles) (mat : filter_matrix_t) (j : Nat)
    (hBij : Bijection mat.MKZ) (hHeap : HeapParent mat.MKZ)
    (halive : MkzIsAlive mat.MKZ.A j = true) :
    (MkzUpdate O mat j).bind (fun m => MkzUpdate O m j) = MkzUpdate O mat j := by
  cases hA : mat.MKZ.A j with
  | none => simp [MkzIsAlive, hA] at halive
  | some adr =>
    have hsome : ∃ mat', MkzUpdate O mat j = some mat' := by
      simp [MkzUpdate, hA]
    obtain ⟨mat', h'⟩ := hsome
    obtain ⟨hwt, hR, hrl, hwm, hty, hn, hbij', hex, hcost, hnone, hheap'⟩ :=
      mkzUpdate_spec O mat mat' j hBij h'
    obtain ⟨kf, hkf1, hkf2, hkf3, hkf4⟩ := hex
    rw [h']
    show MkzUpdate O mat' j = some mat'
    have hcnt : MkzCount O mat' j = MkzCount O mat j :=
      mkzCount_congr O mat mat' j hwt hR hrl hwm hty
    refine mkzUpdate_stable O mat' j kf (hheap' hHeap) hkf3 hkf1 ?_ ?_
    · rw [hn]
      exact hkf2
    · rw [hcnt]
      exact hkf4

/-- Witness for C6: the double update of alive column 0 in `matEx`
equals the single update. -/
theorem mkz_C6_witness :
    (MkzUpdate O0 matEx 0).bind (fun m => MkzUpdate O0 m 0) = MkzUpdate O0 matEx 0 :=
  mkz_C6 O0 matEx 0 bijection_matEx heapParent_matEx (by decide)

/-! ## C3: bijection preservation by the public queue operations -/

theorem mkzUpdateN_bij (O : MstOracles) :
    ∀ (js : List Nat) (mat mat' : filter_matrix_t), Bijection mat.MKZ →
      MkzUpdateN O mat js = some mat' → Bijection mat'.MKZ := by
  intro js
  induction js with
  | nil =>
    intro mat mat' hBij h
    simp only [MkzUpdateN, List.foldlM_nil] at h
    rw [← Option.some.inj h]
    exact hBij
  | cons jj rest ih =>
    intro mat mat' hBij h
    simp only [MkzUpdateN, List.foldlM_cons] at h
    cases hstep : MkzUpdate O mat jj with
    | none =>
      rw [hstep] at h
      simp at h
    | some m1 =>
      rw [hstep] at h
      have hbij1 := (mkzUpdate_spec O mat m1 jj hBij hstep).2.2.2.2.2.2.1
      exact ih m1 mat' hbij1 h

/-- C3: the bijection invariant is preserved by every public queue
operation of the module: after `MkzUpdate` or `MkzUpdateN` completes,
every live slot's column points back at its slot and every alive
column's slot stores the column (the invariant may be broken only
mid-operation, inside the sift loops). -/
theorem mkz_C3 (O : MstOracles) (mat : filter_matrix_t) (j : Nat) (js : List Nat) :
    (∀ mat', MkzUpdate O mat j = some mat' → Bijection mat.MKZ → Bijection mat'.MKZ) ∧
    (∀ mat', MkzUpdateN O mat js = some mat' → Bijection mat.MKZ → Bijection mat'.MKZ) := by
  constructor
  · intro mat' h hBij
    exact (mkzUpdate_spec O mat mat' j hBij h).2.2.2.2.2.2.1
  · intro mat' h hBij
    exact mkzUpdateN_bij O js mat mat' hBij h

/-- Witness for C3: updating alive column 0 of `matEx` keeps the
bijection intact. -/
theorem mkz_C3_witness :
    ∃ mat', MkzUpdate O0 matEx 0 = some mat' ∧ Bijection mat'.MKZ :=
  ⟨_, rfl, (mkz_C3 O0 matEx 0 []).1 _ rfl bijection_matEx⟩

/-! ## C10: frame property of MkzUpdate -/

/-- C10: `MkzUpdate` on an alive column touches only the queue: the
column weights, row lists and row lengths are unchanged, the element
count `Q[0]` is unchanged, the set of columns stored in live slots is
unchanged (each stored exactly once, by the bijection), and only the
updated column's stored cost changes — every other alive column keeps
its cost, with `A` maintained in lockstep. -/
theorem mkz_C10 (O : MstOracles) (mat mat' : filter_matrix_t) (j : Nat)
    (hBij : Bijection mat.MKZ) (h : MkzUpdate O mat j = some mat') :
    mat'.wt = mat.wt ∧ mat'.R = mat.R ∧ mat'.rowLen = mat.rowLen ∧
    mat'.MKZ.n = mat.MKZ.n ∧
    (∀ c, (∃ k, 1 ≤ k ∧ k ≤ mat'.MKZ.n ∧ (mat'.MKZ.Q k).1 = c) ↔
      (∃ k, 1 ≤ k ∧ k ≤ mat.MKZ.n ∧ (mat.MKZ.Q k).1 = c)) ∧
    (∀ c s s', c ≠ j → mat.MKZ.A c = some s → mat'.MKZ.A c = some s' →
      (mat'.MKZ.Q s').2 = (mat.MKZ.Q s).2) ∧
    Bijection mat'.MKZ := by
  obtain ⟨hwt, hR, hrl, hwm, hty, hn, hbij', hex, hcost, hnone, _⟩ :=
    mkzUpdate_spec O mat mat' j hBij h
  refine ⟨hwt, hR, hrl, hn, ?_, ?_, hbij'⟩
  · intro c
    constructor
    · rintro ⟨k, hk1, hk2, hQk⟩
      have halive' : mat'.MKZ.A c = some k := by
        rw [← hQk]
        exact hbij'.1 k hk1 hk2
      have hne : mat.MKZ.A c ≠ none := by
        intro hno
        have hc := (hnone c).mpr hno
        rw [halive'] at hc
        cases hc
      cases hAc : mat.MKZ.A c with
      | none => exact absurd hAc hne
      | some s =>
        obtain ⟨hs1, hsn, hQs⟩ := hBij.2 c s hAc
        exact ⟨s, hs1, hsn, hQs⟩
    · rintro ⟨k, hk1, hk2, hQk⟩
      have halive : mat.MKZ.A c = some k := by
        rw [← hQk]
        exact hBij.1 k hk1 hk2
      have hne : mat'.MKZ.A c ≠ none := by
        intro hno
        have hc := (hnone c).mp hno
        rw [halive] at hc
        cases hc
      cases hAc' : mat'.MKZ.A c with
      | none => exact absurd hAc' hne
      | some s =>
        obtain ⟨hs1, hsn, hQs⟩ := hbij'.2 c s hAc'
        exact ⟨s, hs1, hsn, hQs⟩
  · intro c s s' hcj hAc hAc'
    have hc := hcost c s s' hcj hAc hAc'
    rw [hc]

/-- Witness for C10: updating alive column 0 of `matEx` leaves the
matrix data and the element count unchanged and the bijection intact. -/
theorem mkz_C10_witness :
    ∃ mat', MkzUpdate O0 matEx 0 = some mat' ∧ mat'.wt = matEx.wt ∧
      mat'.MKZ.n = matEx.MKZ.n ∧ Bijection mat'.MKZ :=
  ⟨_, rfl, (mkz_C10 O0 matEx _ 0 bijection_matEx rfl).1,
    (mkz_C10 O0 matEx _ 0 bijection_matEx rfl).2.2.2.1,
    (mkz_C10 O0 matEx _ 0 bijection_matEx rfl).2.2.2.2.2.2⟩

/-! ## C2: MkzUpdate recomputes, rewrites and re-heapifies -/

/-- C2: on a state satisfying the heap and bijection invariants, for an
alive column `j`, `MkzUpdate` recomputes the cost, writes it into `j`'s
current slot, and restores the min-heap property over the live slots by
sifting that slot in exactly one direction — strictly upward if the new
cost is less than its parent's, strictly downward otherwise — with the
bijection invariant holding again at exit. -/
theorem mkz_C2 (O : MstOracles) (mat mat' : filter_matrix_t) (j : Nat)
    (hBij : Bijection mat.MKZ) (hHeap : HeapParent mat.MKZ)
    (h : MkzUpdate O mat j = some mat') :
    HeapParent mat'.MKZ ∧ Bijection mat'.MKZ ∧
    (∃ kf, mat'.MKZ.A j = some kf ∧ mat'.MKZ.Q kf = (j, (MkzCount O mat j).toNat)) ∧
    (∀ adr, mat.MKZ.A j = some adr →
      ((1 < adr ∧ (MkzCount O mat j).toNat < (mat.MKZ.Q (adr / 2)).2 →
        mat'.MKZ = MkzUpQueue (MkzWriteCost mat.MKZ adr (MkzCount O mat j).toNat) adr) ∧
       (1 < adr ∧ ¬ (MkzCount O mat j).toNat < (mat.MKZ.Q (adr / 2)).2 →
        mat'.MKZ = MkzDownQueue (MkzWriteCost mat.MKZ adr (MkzCount O mat j).toNat) adr) ∧
       (adr = 1 →
        mat'.MKZ = MkzDownQueue (MkzWriteCost mat.MKZ adr (MkzCount O mat j).toNat) adr))) := by
  obtain ⟨hwt, hR, hrl, hwm, hty, hn, hbij', hex, hcost, hnone, hheap'⟩ :=
    mkzUpdate_spec O mat mat' j hBij h
  obtain ⟨kf, _, _, hkf3, hkf4⟩ := hex
  refine ⟨hheap' hHeap, hbij', ⟨kf, hkf3, hkf4⟩, ?_⟩
  intro adr hA
  simp only [MkzUpdate, hA] at h
  have he := Option.some.inj h
  have hMKZ : mat'.MKZ =
      MkzMoveUpOrDown (MkzWriteCost mat.MKZ adr (MkzCount O mat j).toNat) adr := by
    rw [← he]
  have e1 : ((MkzWriteCost mat.MKZ adr (MkzCount O mat j).toNat).Q adr).2 =
      (MkzCount O mat j).toNat := by
    simp [MkzWriteCost]
  have e2 : ∀ s, s ≠ adr →
      (MkzWriteCost mat.MKZ adr (MkzCount O mat j).toNat).Q s = mat.MKZ.Q s := by
    intro s hs
    simp [MkzWriteCost, Function.update_apply, hs]
  refine ⟨?_, ?_, ?_⟩
  · rintro ⟨hadr, hlt⟩
    rw [hMKZ]
    unfold MkzMoveUpOrDown
    rw [if_neg (by omega), if_pos ?_, MkzUpQueue]
    rw [e1, e2 (adr / 2) (by omega)]
    exact hlt
  · rintro ⟨hadr, hge⟩
    rw [hMKZ]
    unfold MkzMoveUpOrDown
    rw [if_neg (by omega), if_neg ?_, MkzDownQueue]
    rw [e1, e2 (adr / 2) (by omega)]
    exact hge
  · intro hadr
    rw [hMKZ]
    unfold MkzMoveUpOrDown
    rw [if_pos hadr, MkzDownQueue]

/-- Witness for C2: updating alive column 0 of `matEx` restores the
heap and the bijection, and stores the recomputed cost at column 0's
final slot. -/
theorem mkz_C2_witness :
    ∃ mat', MkzUpdate O0 matEx 0 = some mat' ∧ HeapParent mat'.MKZ ∧
      Bijection mat'.MKZ ∧
      (∃ kf, mat'.MKZ.A 0 = some kf ∧
        mat'.MKZ.Q kf = (0, (MkzCount O0 matEx 0).toNat)) :=
  ⟨_, rfl, (mkz_C2 O0 matEx _ 0 bijection_matEx heapParent_matEx rfl).1,
    (mkz_C2 O0 matEx _ 0 bijection_matEx heapParent_matEx rfl).2.1,
    (mkz_C2 O0 matEx _ 0 bijection_matEx heapParent_matEx rfl).2.2.1⟩

/-! ## C7: the sequential batch update equals the two-phase procedure -/

theorem mkzUpdate_frame (O : MstOracles) (mat mat' : filter_matrix_t) (j : Nat)
    (h : MkzUpdate O mat j = some mat') :
    mat'.wt = mat.wt ∧ mat'.R = mat.R ∧ mat'.rowLen = mat.rowLen ∧
    mat'.wmstmax = mat.wmstmax ∧ mat'.mkztype = mat.mkztype := by
  cases hA : mat.MKZ.A j with
  | none => simp [MkzUpdate, hA] at h
  | some adr =>
    simp only [MkzUpdate, hA] at h
    rw [← Option.some.inj h]
    exact ⟨rfl, rfl, rfl, rfl, rfl⟩

theorem mkzUpdateN_eq_twoPhase (O : MstOracles) :
    ∀ (js : List Nat) (mat : filter_matrix_t),
      MkzUpdateN O mat js = specUpdateN O mat js := by
  intro js
  induction js with
  | nil =>
    intro mat
    rfl
  | cons jj rest ih =>
    intro mat
    simp only [MkzUpdateN, specUpdateN, List.map_cons, List.zip_cons_cons, List.foldlM_cons]
    have happ : MkzApplyCost mat jj (MkzCount O mat jj) = MkzUpdate O mat jj := rfl
    rw [happ]
    cases hstep : MkzUpdate O mat jj with
    | none => rfl
    | some m1 =>
      show rest.foldlM (fun m j2 => MkzUpdate O m j2) m1 =
        (rest.zip (rest.map (fun j2 => MkzCount O mat j2))).foldlM
          (fun m p => MkzApplyCost m p.1 p.2) m1
      obtain ⟨hwt, hR, hrl, hwm, hty⟩ := mkzUpdate_frame O mat m1 jj hstep
      have hmapeq : rest.map (fun j2 => MkzCount O m1 j2) =
          rest.map (fun j2 => MkzCount O mat j2) := by
        have hfun : (fun j2 => MkzCount O m1 j2) = fun j2 => MkzCount O mat j2 :=
          funext (fun j2 => mkzCount_congr O mat m1 j2 hwt hR hrl hwm hty)
        rw [hfun]
      calc rest.foldlM (fun m j2 => MkzUpdate O m j2) m1
          = MkzUpdateN O m1 rest := rfl
        _ = specUpdateN O m1 rest := ih m1
        _ = (rest.zip (rest.map (fun j2 => MkzCount O mat j2))).foldlM
              (fun m p => MkzApplyCost m p.1 p.2) m1 := by
            simp only [specUpdateN]
            rw [hmapeq]

/-- C7: for every list of distinct alive columns, the batch update
`MkzUpdateN` produces the same final queue state (`Q` and `A`) as the
two-phase procedure of the spec: compute all new costs from the matrix
state alone, then apply the cost-write and heap-repair for each column
sequentially in the order supplied.  (The equality in fact holds for
every list; the distinctness and liveness hypotheses mirror the claim.) -/
theorem mkz_C7 (O : MstOracles) (mat : filter_matrix_t) (js : List Nat)
    (hnodup : js.Nodup) (halive : ∀ j2 ∈ js, MkzIsAlive mat.MKZ.A j2 = true) :
    MkzUpdateN O mat js = specUpdateN O mat js :=
  mkzUpdateN_eq_twoPhase O js mat

/-- Witness for C7: the batch update of the distinct alive columns 0
and 1 of `matEx` equals the two-phase procedure. -/
theorem mkz_C7_witness :
    MkzUpdateN O0 matEx [0, 1] = specUpdateN O0 matEx [0, 1] :=
  mkz_C7 O0 matEx [0, 1] (by decide) (by decide)

/-! ## C5: what MkzClear actually logs -/

theorem heap_root_min (q : MkzQueue) (hHeap : HeapParent q) :
    ∀ s, 1 ≤ s → s ≤ q.n → (q.Q 1).2 ≤ (q.Q s).2 := by
  intro s
  induction s using Nat.strong_induction_on with
  | _ s ih =>
    intro hs1 hsn
    by_cases h1 : s = 1
    · subst h1
      exact le_rfl
    · have hp := hHeap s (by omega) hsn
      have hr := ih (s / 2) (by omega) (by omega) (by omega)
      omega

/-- Counterexample for C5: `MkzClear` prints
`MkzGet(MKZQ, MKZQ[0], 1)`, the cost stored at the LAST live slot, and
no maximum over the run is tracked anywhere.  For the valid heap state
`matEx` (root cost 1 at slot 1, cost 5 at slot 2 = `Q[0]`), over a run
whose only state is `matEx.MKZ` the maximum cost ever observed at the
root is 1, while the logged value is 5. -/
theorem mkz_C5_counterexample :
    MkzClearLogged matEx = 5 ∧ specMaxRootEver [matEx.MKZ] = 1 ∧
    MkzClearLogged matEx ≠ specMaxRootEver [matEx.MKZ] ∧
    HeapParent matEx.MKZ ∧ Bijection matEx.MKZ :=
  ⟨rfl, rfl, by decide, heapParent_matEx, bijection_matEx⟩

/-- C5 amended: the teardown operation (`MkzClear`), when verbose, logs
the cost stored at the last live slot `Q[Q[0]]` of the queue at teardown
time — not a tracked maximum of root costs; under the heap invariant the
logged value is at least the root's current cost. -/
theorem mkz_C5_amended (mat : filter_matrix_t) :
    MkzClearLogged mat = (mat.MKZ.Q mat.MKZ.n).2 ∧
    (HeapParent mat.MKZ → 1 ≤ mat.MKZ.n → (mat.MKZ.Q 1).2 ≤ MkzClearLogged mat) := by
  refine ⟨rfl, ?_⟩
  intro hHeap hn
  exact heap_root_min mat.MKZ hHeap mat.MKZ.n hn le_rfl

/-- Witness for the amended C5 at the concrete state `matEx`. -/
theorem mkz_C5_witness :
    MkzClearLogged matEx = (matEx.MKZ.Q matEx.MKZ.n).2 ∧
    (matEx.MKZ.Q 1).2 ≤ MkzClearLogged matEx :=
  ⟨(mkz_C5_amended matEx).1, (mkz_C5_amended matEx).2 heapParent_matEx (by decide)⟩
